import Mathlib

/-!
Shallow embedding of the MemNinja-rs scan engine
(crates/hoodmem/src/scanner.rs, crates/hoodmem/src/util.rs,
crates/memninja/src/memninja_core/{mod.rs,types.rs}) together with
theorems checking the natural-language specification against it.

Modelling conventions:
- machine bytes are `Nat` values; a buffer is a `List Nat`;
- a Rust generic numeric type `T` is a carrier `α` together with a
  `NumOps α` record holding the `PartialOrd`/`PartialEq`/`Sub`/`Add`
  operations the Rust code invokes (comparisons return `Bool`, exactly
  as Rust's operators do);
- the `w`-bit unsigned integers are `Nat` values below `2 ^ w` with
  wrapping arithmetic (`uintOps`);
- an IEEE-754 float is modelled, for the comparison behaviour the spec
  talks about, as `Option ℚ` with `none` playing NaN: every ordered
  comparison involving `none` is `false`, `none == none` is `false`,
  and arithmetic propagates `none` (`floatOps`);
- a Rust panic (the out-of-bounds assertion in `read_from_buffer`) is
  modelled by `Option`: a function that can panic returns `none` in
  exactly the executions in which the Rust code would abort.
-/

namespace MemNinja

/-- `ScanFilter<T>` from scanner.rs lines 10-29, all seventeen variants. -/
inductive ScanFilter (α : Type) where
  | Exact (v : α)
  | Approximate (v : α) (threshold : α)
  | Increased
  | Decreased
  | IncreasedBy (d : α)
  | DecreasedBy (d : α)
  | IncreasedByAtLeast (d : α)
  | IncreasedByAtMost (d : α)
  | DecreasedByAtLeast (d : α)
  | DecreasedByAtMost (d : α)
  | Changed
  | Unchanged
  | ChangedByAtLeast (d : α)
  | ChangedByAtMost (d : α)
  | UnchangedByAtLeast (d : α)
  | UnchangedByAtMost (d : α)
  | Unknown
deriving DecidableEq

/-- The operations a Rust type `T` with
`Copy + PartialOrd + PartialEq + Sub + Add` supplies to `ScanFilter::matches`.
`eq`,`ne`,`lt`,`le`,`gt`,`ge` are `==`,`!=`,`<`,`<=`,`>`,`>=`. -/
structure NumOps (α : Type) where
  eq : α → α → Bool
  ne : α → α → Bool
  lt : α → α → Bool
  le : α → α → Bool
  gt : α → α → Bool
  ge : α → α → Bool
  add : α → α → α
  sub : α → α → α

/-- `ScanFilter::matches` from scanner.rs lines 35-85, translated arm by arm. -/
def ScanFilter.matches (ops : NumOps α) (f : ScanFilter α) (new_t old_t : α) : Bool :=
  match f with
  | .Exact new_value => ops.eq new_value new_t
  | .Approximate new_value threshold =>
      ops.le (if ops.gt new_t new_value then ops.sub new_t new_value
              else ops.sub new_value new_t) threshold
  | .Increased => ops.gt new_t old_t
  | .Decreased => ops.lt new_t old_t
  | .IncreasedBy diff => ops.eq new_t (ops.add old_t diff)
  | .DecreasedBy diff => ops.eq new_t (ops.sub old_t diff)
  | .IncreasedByAtLeast diff => ops.ge new_t old_t && ops.ge (ops.sub new_t old_t) diff
  | .IncreasedByAtMost diff => ops.ge new_t old_t && ops.le (ops.sub new_t old_t) diff
  | .DecreasedByAtLeast diff => ops.le new_t old_t && ops.ge (ops.sub old_t new_t) diff
  | .DecreasedByAtMost diff => ops.le new_t old_t && ops.le (ops.sub old_t new_t) diff
  | .Changed => ops.ne new_t old_t
  | .Unchanged => ops.eq new_t old_t
  | .ChangedByAtLeast diff =>
      ops.ge (if ops.gt new_t old_t then ops.sub new_t old_t
              else ops.sub old_t new_t) diff
  | .ChangedByAtMost diff =>
      ops.le (if ops.gt new_t old_t then ops.sub new_t old_t
              else ops.sub old_t new_t) diff
  | .UnchangedByAtLeast diff =>
      ops.le (if ops.gt new_t old_t then ops.sub new_t old_t
              else ops.sub old_t new_t) diff
  | .UnchangedByAtMost diff =>
      ops.le (if ops.gt new_t old_t then ops.sub new_t old_t
              else ops.sub old_t new_t) diff
  | .Unknown => true

/-- The `w`-bit unsigned integer instantiation: values are `Nat`s below
`2 ^ w`, comparisons are the numeric ones, arithmetic wraps modulo `2 ^ w`. -/
def uintOps (w : Nat) : NumOps Nat where
  eq a b := a == b
  ne a b := a != b
  lt a b := decide (a < b)
  le a b := decide (a ≤ b)
  gt a b := decide (b < a)
  ge a b := decide (b ≤ a)
  add a b := (a + b) % 2 ^ w
  sub a b := (a + 2 ^ w - b) % 2 ^ w

/-- Comparison-level model of an IEEE-754 float: `none` is NaN. -/
abbrev FloatVal : Type := Option ℚ

/-- The float instantiation: NaN fails `==` and every ordered comparison,
satisfies `!=`, and is absorbing for arithmetic. -/
def floatOps : NumOps FloatVal where
  eq a b := match a, b with | some a, some b => decide (a = b) | _, _ => false
  ne a b := !(match a, b with | some a, some b => decide (a = b) | _, _ => false)
  lt a b := match a, b with | some a, some b => decide (a < b) | _, _ => false
  le a b := match a, b with | some a, some b => decide (a ≤ b) | _, _ => false
  gt a b := match a, b with | some a, some b => decide (b < a) | _, _ => false
  ge a b := match a, b with | some a, some b => decide (b ≤ a) | _, _ => false
  add a b := match a, b with | some a, some b => some (a + b) | _, _ => none
  sub a b := match a, b with | some a, some b => some (a - b) | _, _ => none

/-- Modelled from the spec: the §4.2 semantics table, stated for the
`w`-bit unsigned instantiation. `|x − y|` is `max x y - min x y` as the
spec prescribes; sums and differences "in the numeric type `T`" are the
wrapping ones. The two `Unchanged*` variants are not rows of the table. -/
def specMatchesUnsigned (w : Nat) (f : ScanFilter Nat) (new_t old_t : Nat) : Prop :=
  match f with
  | .Exact v => new_t = v
  | .Approximate v eps => max new_t v - min new_t v ≤ eps
  | .Increased => old_t < new_t
  | .Decreased => new_t < old_t
  | .IncreasedBy d => new_t = (old_t + d) % 2 ^ w
  | .DecreasedBy d => new_t = (old_t + 2 ^ w - d) % 2 ^ w
  | .IncreasedByAtLeast d => old_t ≤ new_t ∧ d ≤ new_t - old_t
  | .IncreasedByAtMost d => old_t ≤ new_t ∧ new_t - old_t ≤ d
  | .DecreasedByAtLeast d => new_t ≤ old_t ∧ d ≤ old_t - new_t
  | .DecreasedByAtMost d => new_t ≤ old_t ∧ old_t - new_t ≤ d
  | .Changed => new_t ≠ old_t
  | .Unchanged => new_t = old_t
  | .ChangedByAtLeast d => d ≤ max new_t old_t - min new_t old_t
  | .ChangedByAtMost d => max new_t old_t - min new_t old_t ≤ d
  | .UnchangedByAtLeast _ => True
  | .UnchangedByAtMost _ => True
  | .Unknown => True

/-- The fifteen filters the §4.2 table speaks about (all variants except
the two `Unchanged*` duplicates the spec flags for elision). -/
def inClaimTable : ScanFilter α → Prop
  | .UnchangedByAtLeast _ => False
  | .UnchangedByAtMost _ => False
  | _ => True

/-- Reduce an integer to the representable range of the `w`-bit signed
type, `[-2 ^ (w - 1), 2 ^ (w - 1))`: two's-complement wrapping, the
release-mode overflow semantics of the Rust signed types. -/
def wrapToSigned (w : Nat) (x : Int) : Int :=
  (x + 2 ^ (w - 1)) % 2 ^ w - 2 ^ (w - 1)

/-- The `w`-bit signed integer instantiation: values are `Int`s in the
representable range, comparisons are the numeric ones, arithmetic wraps
two's-complement. -/
def intOps (w : Nat) : NumOps Int where
  eq a b := a == b
  ne a b := a != b
  lt a b := decide (a < b)
  le a b := decide (a ≤ b)
  gt a b := decide (b < a)
  ge a b := decide (b ≤ a)
  add a b := wrapToSigned w (a + b)
  sub a b := wrapToSigned w (a - b)

/-- Modelled from the spec: the §4.2 table for the `w`-bit signed
instantiation, with every sum and difference — including the
max-minus-min absolute difference — computed "in the numeric type `T`",
i.e. in the wrapping two's-complement arithmetic.  (The exact integer
reading of `max − min` diverges from this whenever the in-type
subtraction overflows; see the C1 counterexample.) -/
def specMatchesSigned (w : Nat) (f : ScanFilter Int) (new_t old_t : Int) : Prop :=
  match f with
  | .Exact v => new_t = v
  | .Approximate v eps => wrapToSigned w (max new_t v - min new_t v) ≤ eps
  | .Increased => old_t < new_t
  | .Decreased => new_t < old_t
  | .IncreasedBy d => new_t = wrapToSigned w (old_t + d)
  | .DecreasedBy d => new_t = wrapToSigned w (old_t - d)
  | .IncreasedByAtLeast d => old_t ≤ new_t ∧ d ≤ wrapToSigned w (new_t - old_t)
  | .IncreasedByAtMost d => old_t ≤ new_t ∧ wrapToSigned w (new_t - old_t) ≤ d
  | .DecreasedByAtLeast d => new_t ≤ old_t ∧ d ≤ wrapToSigned w (old_t - new_t)
  | .DecreasedByAtMost d => new_t ≤ old_t ∧ wrapToSigned w (old_t - new_t) ≤ d
  | .Changed => new_t ≠ old_t
  | .Unchanged => new_t = old_t
  | .ChangedByAtLeast d => d ≤ wrapToSigned w (max new_t old_t - min new_t old_t)
  | .ChangedByAtMost d => wrapToSigned w (max new_t old_t - min new_t old_t) ≤ d
  | .UnchangedByAtLeast _ => True
  | .UnchangedByAtMost _ => True
  | .Unknown => True

/-- Apply a function to every value held in a filter (used to build a
float filter whose parameters are all finite). -/
def ScanFilter.map (h : α → β) : ScanFilter α → ScanFilter β
  | .Exact v => .Exact (h v)
  | .Approximate v threshold => .Approximate (h v) (h threshold)
  | .Increased => .Increased
  | .Decreased => .Decreased
  | .IncreasedBy d => .IncreasedBy (h d)
  | .DecreasedBy d => .DecreasedBy (h d)
  | .IncreasedByAtLeast d => .IncreasedByAtLeast (h d)
  | .IncreasedByAtMost d => .IncreasedByAtMost (h d)
  | .DecreasedByAtLeast d => .DecreasedByAtLeast (h d)
  | .DecreasedByAtMost d => .DecreasedByAtMost (h d)
  | .Changed => .Changed
  | .Unchanged => .Unchanged
  | .ChangedByAtLeast d => .ChangedByAtLeast (h d)
  | .ChangedByAtMost d => .ChangedByAtMost (h d)
  | .UnchangedByAtLeast d => .UnchangedByAtLeast (h d)
  | .UnchangedByAtMost d => .UnchangedByAtMost (h d)
  | .Unknown => .Unknown

/-- Modelled from the spec: the §4.2 table on finite float values, with
exact arithmetic (`ℚ` is totally ordered, so `max − min` is the exact
absolute difference; float comparisons on finite values are exact, and
the single subtraction of the difference rows is modelled without
rounding). -/
def specMatchesRat (f : ScanFilter ℚ) (new_t old_t : ℚ) : Prop :=
  match f with
  | .Exact v => new_t = v
  | .Approximate v eps => max new_t v - min new_t v ≤ eps
  | .Increased => old_t < new_t
  | .Decreased => new_t < old_t
  | .IncreasedBy d => new_t = old_t + d
  | .DecreasedBy d => new_t = old_t - d
  | .IncreasedByAtLeast d => old_t ≤ new_t ∧ d ≤ new_t - old_t
  | .IncreasedByAtMost d => old_t ≤ new_t ∧ new_t - old_t ≤ d
  | .DecreasedByAtLeast d => new_t ≤ old_t ∧ d ≤ old_t - new_t
  | .DecreasedByAtMost d => new_t ≤ old_t ∧ old_t - new_t ≤ d
  | .Changed => new_t ≠ old_t
  | .Unchanged => new_t = old_t
  | .ChangedByAtLeast d => d ≤ max new_t old_t - min new_t old_t
  | .ChangedByAtMost d => max new_t old_t - min new_t old_t ≤ d
  | .UnchangedByAtLeast _ => True
  | .UnchangedByAtMost _ => True
  | .Unknown => True

/-- The filter parameters that must themselves be representable `w`-bit
values for the table row to make sense (only `Approximate`'s centre is
ever subtracted from unguarded). -/
def filterParamsLt (w : Nat) : ScanFilter Nat → Prop
  | .Approximate v _ => v < 2 ^ w
  | _ => True

/-- The six filters of the table whose predicate is an ordered comparison
(`<`, `>`, `≤`, `≥`) between new and old. -/
def orderedComparisonFilter : ScanFilter α → Prop
  | .Increased => True
  | .Decreased => True
  | .IncreasedByAtLeast _ => True
  | .IncreasedByAtMost _ => True
  | .DecreasedByAtLeast _ => True
  | .DecreasedByAtMost _ => True
  | _ => False

/-- `MemoryRegion` (base address and size) as consumed by the scanner. -/
structure MemoryRegion where
  base_address : Nat
  size : Nat
deriving DecidableEq

/-- `RegionResults` from scanner.rs lines 91-98: the region, the current
hit offsets (`None` = not yet constrained), and the last snapshot. -/
structure RegionResults where
  region : MemoryRegion
  hit_offsets : Option (List Nat)
  buffer : Option (List Nat)
deriving DecidableEq

/-- `RegionResults::new` (scanner.rs lines 102-108). -/
def RegionResults.new (region : MemoryRegion) : RegionResults :=
  { region := region, hit_offsets := none, buffer := none }

/-- `read_from_buffer::<T>` from util.rs lines 2-12 with `size_of::<T>() = W`
and reinterpretation `decode`: `none` models the out-of-bounds
assertion firing (a panic). -/
def read_from_buffer (decode : List Nat → α) (buffer : List Nat) (offset W : Nat) :
    Option α :=
  if offset + W ≤ buffer.length then some (decode ((buffer.drop offset).take W))
  else none

/-- A parallel `map` whose body can panic: `none` as soon as any element
panics, otherwise the list of results (models the rayon `map` stages whose
bodies call `read_from_buffer`). -/
def mapOpt (f : β → Option γ) : List β → Option (List γ)
  | [] => some []
  | a :: l =>
    match f a, mapOpt f l with
    | some b, some bs => some (b :: bs)
    | _, _ => none

/-- The post-update snapshot policy, scanner.rs lines 240-246: keep the new
bytes iff the hit set is absent or non-empty, else drop the snapshot. -/
def RegionResults.keepSnapshot (s : RegionResults) (region_buf : List Nat) :
    RegionResults :=
  match s.hit_offsets with
  | none => { s with buffer := some region_buf }
  | some l =>
    if 0 < l.length then { s with buffer := some region_buf }
    else { s with buffer := none }

/-- `RegionResults::update_results` from scanner.rs lines 165-247, for a
numeric type of byte width `W` with operations `ops` and byte
reinterpretation `decode`. Returns `none` when the Rust code would panic on
an out-of-bounds `read_from_buffer`. -/
def RegionResults.update_results (ops : NumOps α) (decode : List Nat → α) (W : Nat)
    (s : RegionResults) (region_buf : List Nat) (filter : ScanFilter α) :
    Option RegionResults :=
  match s.buffer with
  | none =>
    -- There was no previous buffer: first scan for this region
    match filter with
    | .Exact v =>
      match mapOpt
          (fun offset => (read_from_buffer decode region_buf offset W).map
            (fun val => (offset, val)))
          ((List.range (s.region.size - W)).filter
            (fun offset => offset + W ≤ region_buf.length)) with
      | some pairs =>
        let hits := (pairs.filter
          (fun p => ScanFilter.matches ops (.Exact v) p.2 p.2)).map (fun p => p.1)
        some (RegionResults.keepSnapshot { s with hit_offsets := some hits } region_buf)
      | none => none
    | _ => some (RegionResults.keepSnapshot s region_buf)
  | some prev =>
    -- Subsequent scans: previous values available
    match s.hit_offsets with
    | some old =>
      match mapOpt
          (fun offset =>
            match read_from_buffer decode region_buf offset W,
                read_from_buffer decode prev offset W with
            | some val, some pv => some (offset, val, pv)
            | _, _ => none)
          (old.filter (fun offset => offset + W ≤ region_buf.length)) with
      | some triples =>
        let hits := (triples.filter
          (fun t => ScanFilter.matches ops filter t.2.1 t.2.2)).map (fun t => t.1)
        some (RegionResults.keepSnapshot { s with hit_offsets := some hits } region_buf)
      | none => none
    | none =>
      match mapOpt
          (fun offset =>
            match read_from_buffer decode region_buf offset W,
                read_from_buffer decode prev offset W with
            | some val, some pv => some (offset, val, pv)
            | _, _ => none)
          ((List.range (s.region.size - W)).filter
            (fun offset => offset + W ≤ region_buf.length)) with
      | some triples =>
        let hits := (triples.filter
          (fun t => ScanFilter.matches ops filter t.2.1 t.2.2)).map (fun t => t.1)
        some (RegionResults.keepSnapshot { s with hit_offsets := some hits } region_buf)
      | none => none

/-- Little-endian value of a byte list: the reinterpretation an unaligned
unsigned read performs on a little-endian host. -/
def leVal : List Nat → Nat
  | [] => 0
  | b :: rest => b + 256 * leVal rest

/-- The per-region body of the refinement arm of `Scanner::scan`
(scanner.rs lines 399-411): skip a region whose hit set is present and
empty; otherwise read its memory (`readResult` is the outcome) and, on
success, update its results. -/
def scanPassRegion (ops : NumOps α) (decode : List Nat → α) (W : Nat)
    (s : RegionResults) (readResult : Option (List Nat)) (filter : ScanFilter α) :
    Option RegionResults :=
  match s.hit_offsets with
  | none =>
    match readResult with
    | some region_memory => RegionResults.update_results ops decode W s region_memory filter
    | none => some s
  | some l =>
    if 0 < l.length then
      match readResult with
      | some region_memory => RegionResults.update_results ops decode W s region_memory filter
      | none => some s
    else some s

/-- Lookup in the scanner's region map (`HashMap<MemoryRegion, RegionResults>`
modelled as an association list with unique keys). -/
def lookupRegion : List (MemoryRegion × RegionResults) → MemoryRegion →
    Option RegionResults
  | [], _ => none
  | (k, v) :: rest, r => if k = r then some v else lookupRegion rest r

/-- `HashMap::insert`: replace the entry of an existing key, else add one. -/
def insertRegion : List (MemoryRegion × RegionResults) → MemoryRegion →
    RegionResults → List (MemoryRegion × RegionResults)
  | [], r, v => [(r, v)]
  | (k, w) :: rest, r, v =>
    if k = r then (r, v) :: rest else (k, w) :: insertRegion rest r v

/-- `Scanner` state (scanner.rs lines 250-254): the region map and the
new-scan flag.  The process handle lives outside the model; reads from it
are passed to `Scanner.scan` as a function. -/
structure Scanner where
  results : List (MemoryRegion × RegionResults)
  is_new_scan : Bool
deriving DecidableEq

/-- `Scanner::new` (scanner.rs lines 257-263). -/
def Scanner.mkNew : Scanner := { results := [], is_new_scan := true }

/-- `Scanner::new_scan` (scanner.rs lines 353-356). -/
def Scanner.new_scan (_sc : Scanner) : Scanner :=
  { results := [], is_new_scan := true }

/-- The new-scan loop of `Scanner::scan` (scanner.rs lines 384-395): for each
enumerated region, read its memory; on success insert a fresh
`RegionResults` and update it under the filter. -/
def scanFoldNew (ops : NumOps α) (decode : List Nat → α) (W : Nat)
    (readMem : MemoryRegion → Option (List Nat)) (filter : ScanFilter α) :
    List MemoryRegion → List (MemoryRegion × RegionResults) →
    Option (List (MemoryRegion × RegionResults))
  | [], acc => some acc
  | region :: rest, acc =>
    match readMem region with
    | some region_memory =>
      match RegionResults.update_results ops decode W (RegionResults.new region)
          region_memory filter with
      | some rr => scanFoldNew ops decode W readMem filter rest
          (insertRegion acc region rr)
      | none => none
    | none => scanFoldNew ops decode W readMem filter rest acc

/-- The refinement loop of `Scanner::scan` (scanner.rs lines 398-412): for
each enumerated region already tracked, run the per-region pass body. -/
def scanFoldRefine (ops : NumOps α) (decode : List Nat → α) (W : Nat)
    (readMem : MemoryRegion → Option (List Nat)) (filter : ScanFilter α) :
    List MemoryRegion → List (MemoryRegion × RegionResults) →
    Option (List (MemoryRegion × RegionResults))
  | [], acc => some acc
  | region :: rest, acc =>
    match lookupRegion acc region with
    | some region_results =>
      match scanPassRegion ops decode W region_results (readMem region) filter with
      | some rr => scanFoldRefine ops decode W readMem filter rest
          (insertRegion acc region rr)
      | none => none
    | none => scanFoldRefine ops decode W readMem filter rest acc

/-- `Scanner::scan` (scanner.rs lines 359-417): `regions` is this pass's
enumeration of writable regions, `readMem` the outcome of
`read_memory_bytes` for each region.  Always ends with `is_new_scan = false`;
`none` models a panic inside a region update. -/
def Scanner.scan (ops : NumOps α) (decode : List Nat → α) (W : Nat)
    (sc : Scanner) (regions : List MemoryRegion)
    (readMem : MemoryRegion → Option (List Nat)) (filter : ScanFilter α) :
    Option Scanner :=
  if sc.is_new_scan then
    match scanFoldNew ops decode W readMem filter regions sc.results with
    | some res => some { results := res, is_new_scan := false }
    | none => none
  else
    match scanFoldRefine ops decode W readMem filter regions sc.results with
    | some res => some { results := res, is_new_scan := false }
    | none => none

/-- `AttachTarget` (memninja_core/types.rs lines 2-6). -/
inductive AttachTarget where
  | Process (pid : Nat)
  | Window (name : String)
  | Other (tag : String)
deriving DecidableEq

/-- `AttachStatus` (memninja_core/types.rs lines 9-13). -/
inductive AttachStatus where
  | Detached
  | Attached (t : AttachTarget)
  | Unknown
deriving DecidableEq

/-- `ScanStatus` (memninja_core/types.rs lines 23-35). -/
inductive ScanStatus where
  | Ready
  | Scanning
  | Done (n : Nat)
  | Failed (msg : String)
  | Unknown
deriving DecidableEq

/-- `Core` (memninja_core/mod.rs lines 15-20); the process handle is an
opaque identifier. -/
structure Core where
  process : Option Nat
  scanner : Option Scanner
  attach_status : AttachStatus
  scan_status : ScanStatus
deriving DecidableEq

/-- The tail of `Core::attach`'s `Detached` arm (mod.rs lines 54-57): build
a scanner if a process handle is present, then return `Ok(())`. -/
def Core.finishAttach (c : Core) : Core × Except String Unit :=
  (if c.process.isSome then { c with scanner := some Scanner.mkNew } else c,
   Except.ok ())

/-- `Core::attach` (mod.rs lines 35-66).  `attachExt` and `attachExtByName`
model `hoodmem::attach_external{,_by_name}`; their `?` failures return
early.  In the `Other` arm the Rust code binds
`Err(anyhow!("Attach not yet implemented for target: ..."))` to the local
`attach_status` and never uses it, so the arm falls through to `Ok(())`. -/
def Core.attach (attachExt : Nat → Except String Nat)
    (attachExtByName : String → Except String Nat)
    (c : Core) (target : AttachTarget) : Core × Except String Unit :=
  match c.attach_status with
  | .Detached =>
    match target with
    | .Process pid =>
      match attachExt pid with
      | .error e => (c, .error e)
      | .ok h =>
        Core.finishAttach
          { c with process := some h, attach_status := .Attached target }
    | .Window name =>
      match attachExtByName name with
      | .error e => (c, .error e)
      | .ok h =>
        Core.finishAttach
          { c with process := some h, attach_status := .Attached target }
    | .Other _ => Core.finishAttach c
  | .Attached _ => (c, .error "Already attached")
  | .Unknown => (c, .error "MemNinja Core attach status is currently unknown")

/-- `MemType` (memninja_core/types.rs lines 115-128). -/
inductive MemType where
  | U8 | U16 | U32 | U64 | I8 | I16 | I32 | I64 | F32 | F64 | Unknown
deriving DecidableEq

/-- The ten monomorphic numeric types `Scanner::get_first_results::<T>` can
be instantiated at. -/
inductive NumKind where
  | u8 | u16 | u32 | u64 | i8 | i16 | i32 | i64 | f32 | f64
deriving DecidableEq

/-- Byte width of each numeric type. -/
def NumKind.width : NumKind → Nat
  | .u8 => 1 | .u16 => 2 | .u32 => 4 | .u64 => 8
  | .i8 => 1 | .i16 => 2 | .i32 => 4 | .i64 => 8
  | .f32 => 4 | .f64 => 8

/-- The instantiation `CoreController::get_first_results` dispatches each
`MemType` to (mod.rs lines 172-184); `none` is the `MemType::Unknown` arm
returning an empty vector.  The `U64` arm reads
`scanner.get_first_results::<u32>(n)`. -/
def get_first_results_dispatch : MemType → Option NumKind
  | .U8 => some .u8
  | .U16 => some .u16
  | .U32 => some .u32
  | .U64 => some .u32
  | .I8 => some .i8
  | .I16 => some .i16
  | .I32 => some .i32
  | .I64 => some .i64
  | .F32 => some .f32
  | .F64 => some .f64
  | .Unknown => none

/-- Modelled from the spec: the numeric type matching each `MemType`. -/
def matchingKind : MemType → Option NumKind
  | .U8 => some .u8
  | .U16 => some .u16
  | .U32 => some .u32
  | .U64 => some .u64
  | .I8 => some .i8
  | .I16 => some .i16
  | .I32 => some .i32
  | .I64 => some .i64
  | .F32 => some .f32
  | .F64 => some .f64
  | .Unknown => none

theorem wrapSub_of_le {w a b : Nat} (ha : a < 2 ^ w) (hba : b ≤ a) :
    (a + 2 ^ w - b) % 2 ^ w = a - b := by
  have h1 : a + 2 ^ w - b = (a - b) + 2 ^ w := by omega
  rw [h1, Nat.add_mod_right]
  exact Nat.mod_eq_of_lt (by omega)

theorem mapOpt_eq_map {f : β → Option γ} {g : β → γ} :
    ∀ {l : List β}, (∀ a ∈ l, f a = some (g a)) → mapOpt f l = some (l.map g) := by
  intro l
  induction l with
  | nil => intro _; rfl
  | cons a l ih =>
    intro h
    have ha := h a (List.mem_cons_self a l)
    have hl := ih (fun x hx => h x (List.mem_cons_of_mem a hx))
    simp [mapOpt, ha, hl]

theorem mapOpt_map_proj {f : β → Option γ} {p : γ → β}
    (hp : ∀ a y, f a = some y → p y = a) :
    ∀ {l : List β} {ys : List γ}, mapOpt f l = some ys → ys.map p = l := by
  intro l
  induction l with
  | nil =>
    intro ys h
    simp only [mapOpt, Option.some.injEq] at h
    subst h; rfl
  | cons a l ih =>
    intro ys h
    simp only [mapOpt] at h
    cases hfa : f a with
    | none => rw [hfa] at h; exact absurd h (by simp)
    | some b =>
      cases hml : mapOpt f l with
      | none => rw [hfa, hml] at h; exact absurd h (by simp)
      | some bs =>
        rw [hfa, hml] at h
        simp only [Option.some.injEq] at h
        subst h
        simp [hp a b hfa, ih hml]

/-- C1 (amended): `ScanFilter::matches` against the §4.2 semantics table.
For the `w`-bit unsigned instantiation every table row holds as stated
(the max-minus-min absolute difference of in-range values is exact).  For
the `w`-bit signed instantiation every row holds with all sums and
differences — including the max-minus-min absolute difference — computed
in the wrapping two's-complement arithmetic of the type; the exact
integer reading of the absolute difference diverges where the in-type
subtraction overflows (see `approximate_signed_overflow_cex`).  On
floats, `Exact(NaN)` never matches, a NaN participant makes each of the
six ordered-comparison filters return `false`, and on finite values
every row holds with exact arithmetic. -/
theorem matches_implements_table :
    (∀ (w : Nat) (f : ScanFilter Nat) (new_t old_t : Nat),
        new_t < 2 ^ w → old_t < 2 ^ w → filterParamsLt w f → inClaimTable f →
        (ScanFilter.matches (uintOps w) f new_t old_t = true ↔
          specMatchesUnsigned w f new_t old_t))
    ∧ (∀ (w : Nat) (f : ScanFilter Int) (new_t old_t : Int), inClaimTable f →
        (ScanFilter.matches (intOps w) f new_t old_t = true ↔
          specMatchesSigned w f new_t old_t))
    ∧ (∀ x y : FloatVal, ScanFilter.matches floatOps (.Exact none) x y = false)
    ∧ (∀ (f : ScanFilter FloatVal) (new_t old_t : FloatVal),
        orderedComparisonFilter f → (new_t = none ∨ old_t = none) →
        ScanFilter.matches floatOps f new_t old_t = false)
    ∧ (∀ (g : ScanFilter ℚ) (new_t old_t : ℚ), inClaimTable g →
        (ScanFilter.matches floatOps (g.map some) (some new_t) (some old_t) = true ↔
          specMatchesRat g new_t old_t)) := by
  refine ⟨?_, ?_, ?_, ?_, ?_⟩
  · intro w f new_t old_t hn ho hp hc
    cases f with
    | Exact v =>
      simp only [ScanFilter.matches, uintOps, specMatchesUnsigned, beq_iff_eq]
      exact eq_comm
    | Approximate v eps =>
      have hv : v < 2 ^ w := hp
      simp only [ScanFilter.matches, uintOps, specMatchesUnsigned,
        decide_eq_true_eq]
      by_cases hlt : v < new_t
      · rw [if_pos hlt, wrapSub_of_le hn hlt.le]
        omega
      · rw [if_neg hlt, wrapSub_of_le hv (by omega)]
        omega
    | Increased =>
      simp [ScanFilter.matches, uintOps, specMatchesUnsigned]
    | Decreased =>
      simp [ScanFilter.matches, uintOps, specMatchesUnsigned]
    | IncreasedBy d =>
      simp [ScanFilter.matches, uintOps, specMatchesUnsigned]
    | DecreasedBy d =>
      simp [ScanFilter.matches, uintOps, specMatchesUnsigned]
    | IncreasedByAtLeast d =>
      simp only [ScanFilter.matches, uintOps, specMatchesUnsigned,
        Bool.and_eq_true, decide_eq_true_eq]
      constructor
      · rintro ⟨h1, h2⟩
        rw [wrapSub_of_le hn h1] at h2
        exact ⟨h1, h2⟩
      · rintro ⟨h1, h2⟩
        rw [wrapSub_of_le hn h1]
        exact ⟨h1, h2⟩
    | IncreasedByAtMost d =>
      simp only [ScanFilter.matches, uintOps, specMatchesUnsigned,
        Bool.and_eq_true, decide_eq_true_eq]
      constructor
      · rintro ⟨h1, h2⟩
        rw [wrapSub_of_le hn h1] at h2
        exact ⟨h1, h2⟩
      · rintro ⟨h1, h2⟩
        rw [wrapSub_of_le hn h1]
        exact ⟨h1, h2⟩
    | DecreasedByAtLeast d =>
      simp only [ScanFilter.matches, uintOps, specMatchesUnsigned,
        Bool.and_eq_true, decide_eq_true_eq]
      constructor
      · rintro ⟨h1, h2⟩
        rw [wrapSub_of_le ho h1] at h2
        exact ⟨h1, h2⟩
      · rintro ⟨h1, h2⟩
        rw [wrapSub_of_le ho h1]
        exact ⟨h1, h2⟩
    | DecreasedByAtMost d =>
      simp only [ScanFilter.matches, uintOps, specMatchesUnsigned,
        Bool.and_eq_true, decide_eq_true_eq]
      constructor
      · rintro ⟨h1, h2⟩
        rw [wrapSub_of_le ho h1] at h2
        exact ⟨h1, h2⟩
      · rintro ⟨h1, h2⟩
        rw [wrapSub_of_le ho h1]
        exact ⟨h1, h2⟩
    | Changed =>
      simp [ScanFilter.matches, uintOps, specMatchesUnsigned]
    | Unchanged =>
      simp [ScanFilter.matches, uintOps, specMatchesUnsigned]
    | ChangedByAtLeast d =>
      simp only [ScanFilter.matches, uintOps, specMatchesUnsigned,
        decide_eq_true_eq]
      by_cases hlt : old_t < new_t
      · rw [if_pos hlt, wrapSub_of_le hn hlt.le]
        omega
      · rw [if_neg hlt, wrapSub_of_le ho (by omega)]
        omega
    | ChangedByAtMost d =>
      simp only [ScanFilter.matches, uintOps, specMatchesUnsigned,
        decide_eq_true_eq]
      by_cases hlt : old_t < new_t
      · rw [if_pos hlt, wrapSub_of_le hn hlt.le]
        omega
      · rw [if_neg hlt, wrapSub_of_le ho (by omega)]
        omega
    | UnchangedByAtLeast d => exact hc.elim
    | UnchangedByAtMost d => exact hc.elim
    | Unknown =>
      simp [ScanFilter.matches, specMatchesUnsigned]
  · intro w f new_t old_t hc
    cases f with
    | Exact v =>
      simp only [ScanFilter.matches, intOps, specMatchesSigned, beq_iff_eq]
      exact eq_comm
    | Approximate v eps =>
      simp only [ScanFilter.matches, intOps, specMatchesSigned,
        decide_eq_true_eq]
      by_cases h : v < new_t
      · rw [if_pos h, max_eq_left h.le, min_eq_right h.le]
      · rw [if_neg h, max_eq_right (not_lt.mp h), min_eq_left (not_lt.mp h)]
    | Increased =>
      simp [ScanFilter.matches, intOps, specMatchesSigned]
    | Decreased =>
      simp [ScanFilter.matches, intOps, specMatchesSigned]
    | IncreasedBy d =>
      simp [ScanFilter.matches, intOps, specMatchesSigned]
    | DecreasedBy d =>
      simp [ScanFilter.matches, intOps, specMatchesSigned]
    | IncreasedByAtLeast d =>
      simp [ScanFilter.matches, intOps, specMatchesSigned, Bool.and_eq_true]
    | IncreasedByAtMost d =>
      simp [ScanFilter.matches, intOps, specMatchesSigned, Bool.and_eq_true]
    | DecreasedByAtLeast d =>
      simp [ScanFilter.matches, intOps, specMatchesSigned, Bool.and_eq_true]
    | DecreasedByAtMost d =>
      simp [ScanFilter.matches, intOps, specMatchesSigned, Bool.and_eq_true]
    | Changed =>
      simp [ScanFilter.matches, intOps, specMatchesSigned]
    | Unchanged =>
      simp [ScanFilter.matches, intOps, specMatchesSigned]
    | ChangedByAtLeast d =>
      simp only [ScanFilter.matches, intOps, specMatchesSigned,
        decide_eq_true_eq]
      by_cases h : old_t < new_t
      · rw [if_pos h, max_eq_left h.le, min_eq_right h.le]
      · rw [if_neg h, max_eq_right (not_lt.mp h), min_eq_left (not_lt.mp h)]
    | ChangedByAtMost d =>
      simp only [ScanFilter.matches, intOps, specMatchesSigned,
        decide_eq_true_eq]
      by_cases h : old_t < new_t
      · rw [if_pos h, max_eq_left h.le, min_eq_right h.le]
      · rw [if_neg h, max_eq_right (not_lt.mp h), min_eq_left (not_lt.mp h)]
    | UnchangedByAtLeast d => exact hc.elim
    | UnchangedByAtMost d => exact hc.elim
    | Unknown =>
      simp [ScanFilter.matches, specMatchesSigned]
  · intro x y
    cases x <;> rfl
  · intro f new_t old_t hf hno
    cases f with
    | Increased =>
      rcases hno with rfl | rfl
      · cases old_t <;> rfl
      · cases new_t <;> rfl
    | Decreased =>
      rcases hno with rfl | rfl
      · cases old_t <;> rfl
      · cases new_t <;> rfl
    | IncreasedByAtLeast d =>
      rcases hno with rfl | rfl
      · cases old_t <;> rfl
      · cases new_t <;> rfl
    | IncreasedByAtMost d =>
      rcases hno with rfl | rfl
      · cases old_t <;> rfl
      · cases new_t <;> rfl
    | DecreasedByAtLeast d =>
      rcases hno with rfl | rfl
      · cases old_t <;> rfl
      · cases new_t <;> rfl
    | DecreasedByAtMost d =>
      rcases hno with rfl | rfl
      · cases old_t <;> rfl
      · cases new_t <;> rfl
    | Exact v => exact hf.elim
    | Approximate v eps => exact hf.elim
    | IncreasedBy d => exact hf.elim
    | DecreasedBy d => exact hf.elim
    | Changed => exact hf.elim
    | Unchanged => exact hf.elim
    | ChangedByAtLeast d => exact hf.elim
    | ChangedByAtMost d => exact hf.elim
    | UnchangedByAtLeast d => exact hf.elim
    | UnchangedByAtMost d => exact hf.elim
    | Unknown => exact hf.elim
  · intro g new_t old_t hc
    cases g with
    | Exact v =>
      simp only [ScanFilter.map, ScanFilter.matches, floatOps, specMatchesRat,
        decide_eq_true_eq]
      exact eq_comm
    | Approximate v eps =>
      simp only [ScanFilter.map, ScanFilter.matches, floatOps, specMatchesRat,
        decide_eq_true_eq]
      by_cases h : v < new_t
      · rw [if_pos h, max_eq_left h.le, min_eq_right h.le]
        simp
      · rw [if_neg h, max_eq_right (not_lt.mp h), min_eq_left (not_lt.mp h)]
        simp
    | Increased =>
      simp [ScanFilter.map, ScanFilter.matches, floatOps, specMatchesRat]
    | Decreased =>
      simp [ScanFilter.map, ScanFilter.matches, floatOps, specMatchesRat]
    | IncreasedBy d =>
      simp [ScanFilter.map, ScanFilter.matches, floatOps, specMatchesRat]
    | DecreasedBy d =>
      simp [ScanFilter.map, ScanFilter.matches, floatOps, specMatchesRat]
    | IncreasedByAtLeast d =>
      simp [ScanFilter.map, ScanFilter.matches, floatOps, specMatchesRat,
        Bool.and_eq_true]
    | IncreasedByAtMost d =>
      simp [ScanFilter.map, ScanFilter.matches, floatOps, specMatchesRat,
        Bool.and_eq_true]
    | DecreasedByAtLeast d =>
      simp [ScanFilter.map, ScanFilter.matches, floatOps, specMatchesRat,
        Bool.and_eq_true]
    | DecreasedByAtMost d =>
      simp [ScanFilter.map, ScanFilter.matches, floatOps, specMatchesRat,
        Bool.and_eq_true]
    | Changed =>
      simp [ScanFilter.map, ScanFilter.matches, floatOps, specMatchesRat]
    | Unchanged =>
      simp [ScanFilter.map, ScanFilter.matches, floatOps, specMatchesRat]
    | ChangedByAtLeast d =>
      simp only [ScanFilter.map, ScanFilter.matches, floatOps, specMatchesRat,
        decide_eq_true_eq]
      by_cases h : old_t < new_t
      · rw [if_pos h, max_eq_left h.le, min_eq_right h.le]
        simp
      · rw [if_neg h, max_eq_right (not_lt.mp h), min_eq_left (not_lt.mp h)]
        simp
    | ChangedByAtMost d =>
      simp only [ScanFilter.map, ScanFilter.matches, floatOps, specMatchesRat,
        decide_eq_true_eq]
      by_cases h : old_t < new_t
      · rw [if_pos h, max_eq_left h.le, min_eq_right h.le]
        simp
      · rw [if_neg h, max_eq_right (not_lt.mp h), min_eq_left (not_lt.mp h)]
        simp
    | UnchangedByAtLeast d => exact hc.elim
    | UnchangedByAtMost d => exact hc.elim
    | Unknown =>
      simp [ScanFilter.map, ScanFilter.matches, specMatchesRat]

/-- C1 counterexample: on the 8-bit signed type, `Approximate(-100, 0)`
matches `new = 100`: the code's in-type difference `100 − (−100)` wraps to
`−56 ≤ 0`, while the claim's absolute difference `max − min = 200` exceeds
the threshold `0`, so the table as stated fails on signed types. -/
theorem approximate_signed_overflow_cex :
    ScanFilter.matches (intOps 8) (.Approximate (-100) 0) 100 0 = true
    ∧ max (100 : Int) (-100) - min (100 : Int) (-100) = 200
    ∧ ¬((200 : Int) ≤ 0) := by
  decide

/-- Witness for the table theorem at concrete inputs, one per
instantiation family. -/
theorem matches_implements_table_witness :
    (ScanFilter.matches (uintOps 8) (.Exact 65) 65 0 = true ↔
      specMatchesUnsigned 8 (.Exact 65) 65 0)
    ∧ (ScanFilter.matches (intOps 8) (.Exact (-5)) (-5) 0 = true ↔
      specMatchesSigned 8 (.Exact (-5)) (-5) 0)
    ∧ ScanFilter.matches floatOps (.Exact none) (some 1) (some 1) = false
    ∧ ScanFilter.matches floatOps .Increased none (some 1) = false
    ∧ (ScanFilter.matches floatOps ((ScanFilter.Exact (1 : ℚ)).map some)
        (some 1) (some 0) = true ↔ specMatchesRat (.Exact 1) 1 0) :=
  ⟨matches_implements_table.1 8 (.Exact 65) 65 0 (by decide) (by decide)
      trivial trivial,
   matches_implements_table.2.1 8 (.Exact (-5)) (-5) 0 trivial,
   matches_implements_table.2.2.1 (some 1) (some 1),
   matches_implements_table.2.2.2.1 .Increased none (some 1) trivial (Or.inl rfl),
   matches_implements_table.2.2.2.2 (.Exact 1) 1 0 trivial⟩

theorem keepSnapshot_hit_offsets (s : RegionResults) (buf : List Nat) :
    (RegionResults.keepSnapshot s buf).hit_offsets = s.hit_offsets := by
  rcases s with ⟨r, ho, b⟩
  cases ho with
  | none => rfl
  | some l =>
    simp only [RegionResults.keepSnapshot]
    split <;> rfl

theorem keepSnapshot_region (s : RegionResults) (buf : List Nat) :
    (RegionResults.keepSnapshot s buf).region = s.region := by
  rcases s with ⟨r, ho, b⟩
  cases ho with
  | none => rfl
  | some l =>
    simp only [RegionResults.keepSnapshot]
    split <;> rfl

theorem keepSnapshot_buffer_of_ne_nil {s : RegionResults} {l : List Nat}
    (h : s.hit_offsets = some l) (hl : l ≠ []) (buf : List Nat) :
    (RegionResults.keepSnapshot s buf).buffer = some buf := by
  rcases s with ⟨r, ho, b⟩
  cases ho with
  | none => rfl
  | some m =>
    simp only [Option.some.injEq] at h
    subst h
    simp only [RegionResults.keepSnapshot]
    rw [if_pos (List.length_pos.mpr hl)]

/-- Every completing branch of `update_results` ends in the snapshot
policy applied to the new bytes. -/
theorem update_results_eq_keepSnapshot {ops : NumOps α} {decode : List Nat → α}
    {W : Nat} {s : RegionResults} {region_buf : List Nat} {filter : ScanFilter α}
    {s' : RegionResults}
    (h : RegionResults.update_results ops decode W s region_buf filter = some s') :
    ∃ t, s' = RegionResults.keepSnapshot t region_buf := by
  unfold RegionResults.update_results at h
  split at h
  · split at h
    · split at h
      · simp only [Option.some.injEq] at h
        exact ⟨_, h.symm⟩
      · exact absurd h (by simp)
    · simp only [Option.some.injEq] at h
      exact ⟨_, h.symm⟩
  · split at h
    · split at h
      · simp only [Option.some.injEq] at h
        exact ⟨_, h.symm⟩
      · exact absurd h (by simp)
    · split at h
      · simp only [Option.some.injEq] at h
        exact ⟨_, h.symm⟩
      · exact absurd h (by simp)

/-- C5: after every completing call to `update_results` with new bytes `B`,
the stored snapshot equals `B` iff the hit set is absent or non-empty, and
the snapshot is dropped whenever the hit set is present and empty. -/
theorem update_results_snapshot_policy (ops : NumOps α) (decode : List Nat → α)
    (W : Nat) (s : RegionResults) (region_buf : List Nat) (filter : ScanFilter α)
    (s' : RegionResults)
    (h : RegionResults.update_results ops decode W s region_buf filter = some s') :
    (s'.buffer = some region_buf ↔
      (s'.hit_offsets = none ∨ ∃ l, s'.hit_offsets = some l ∧ l ≠ []))
    ∧ (s'.hit_offsets = some [] → s'.buffer = none) := by
  obtain ⟨t, rfl⟩ := update_results_eq_keepSnapshot h
  rcases t with ⟨r, ho, b⟩
  cases ho with
  | none => simp [RegionResults.keepSnapshot]
  | some l =>
    cases l with
    | nil => simp [RegionResults.keepSnapshot]
    | cons a l => simp [RegionResults.keepSnapshot]

/-- Witness for the snapshot-policy theorem at a concrete call. -/
theorem update_results_snapshot_policy_witness :
    ((RegionResults.mk ⟨4096, 2⟩ none (some [0, 0])).buffer = some [0, 0] ↔
      ((RegionResults.mk ⟨4096, 2⟩ none (some [0, 0])).hit_offsets = none ∨
        ∃ l, (RegionResults.mk ⟨4096, 2⟩ none (some [0, 0])).hit_offsets = some l
          ∧ l ≠ []))
    ∧ ((RegionResults.mk ⟨4096, 2⟩ none (some [0, 0])).hit_offsets = some [] →
      (RegionResults.mk ⟨4096, 2⟩ none (some [0, 0])).buffer = none) :=
  update_results_snapshot_policy (uintOps 8) leVal 1 (RegionResults.new ⟨4096, 2⟩)
    [0, 0] .Unknown ⟨⟨4096, 2⟩, none, some [0, 0]⟩ rfl

theorem lookupRegion_insertRegion_self (acc : List (MemoryRegion × RegionResults))
    (r : MemoryRegion) (v : RegionResults) :
    lookupRegion (insertRegion acc r v) r = some v := by
  induction acc with
  | nil => simp [insertRegion, lookupRegion]
  | cons kv rest ih =>
    obtain ⟨k, w⟩ := kv
    by_cases hk : k = r
    · subst hk
      simp [insertRegion, lookupRegion]
    · simp [insertRegion, lookupRegion, hk, ih]

theorem lookupRegion_insertRegion_ne (acc : List (MemoryRegion × RegionResults))
    (r : MemoryRegion) (v : RegionResults) (r' : MemoryRegion) (h : r' ≠ r) :
    lookupRegion (insertRegion acc r v) r' = lookupRegion acc r' := by
  induction acc with
  | nil => simp [insertRegion, lookupRegion, Ne.symm h]
  | cons kv rest ih =>
    obtain ⟨k, w⟩ := kv
    by_cases hk : k = r
    · subst hk
      simp [insertRegion, lookupRegion, Ne.symm h]
    · simp [insertRegion, lookupRegion, hk, ih]

/-- Every entry after the new-scan loop either survived from the initial
map or is the result of updating a fresh `RegionResults` with the bytes the
region's read returned. -/
theorem scanFoldNew_entries {ops : NumOps α} {decode : List Nat → α} {W : Nat}
    {readMem : MemoryRegion → Option (List Nat)} {filter : ScanFilter α} :
    ∀ {regions : List MemoryRegion} {acc acc' : List (MemoryRegion × RegionResults)},
      scanFoldNew ops decode W readMem filter regions acc = some acc' →
      ∀ r rr, lookupRegion acc' r = some rr →
        lookupRegion acc r = some rr ∨
        ∃ mem, readMem r = some mem ∧
          RegionResults.update_results ops decode W (RegionResults.new r) mem filter
            = some rr := by
  intro regions
  induction regions with
  | nil =>
    intro acc acc' h r rr hlk
    simp only [scanFoldNew, Option.some.injEq] at h
    subst h
    exact Or.inl hlk
  | cons region rest ih =>
    intro acc acc' h r rr hlk
    simp only [scanFoldNew] at h
    cases hrd : readMem region with
    | none =>
      simp only [hrd] at h
      exact ih h r rr hlk
    | some mem =>
      simp only [hrd] at h
      cases hup : RegionResults.update_results ops decode W (RegionResults.new region)
          mem filter with
      | none => simp only [hup] at h; exact absurd h (by simp)
      | some rr0 =>
        simp only [hup] at h
        rcases ih h r rr hlk with hacc | hnew
        · by_cases hr : r = region
          · subst hr
            rw [lookupRegion_insertRegion_self] at hacc
            simp only [Option.some.injEq] at hacc
            subst hacc
            exact Or.inr ⟨mem, hrd, hup⟩
          · rw [lookupRegion_insertRegion_ne _ _ _ _ hr] at hacc
            exact Or.inl hacc
        · exact Or.inr hnew

/-- A first-scan update with any filter other than `Exact` leaves the hit
set absent and stores the snapshot (scanner.rs lines 178-194: only the
`Exact` arm computes hits on a first scan). -/
theorem update_new_unknown (ops : NumOps α) (decode : List Nat → α) (W : Nat)
    (r : MemoryRegion) (region_buf : List Nat) :
    RegionResults.update_results ops decode W (RegionResults.new r) region_buf .Unknown
      = some ⟨r, none, some region_buf⟩ := rfl

/-- C3 (amended): the first `scan(Unknown)` after `new_scan` leaves every
successfully-read region's hit set absent (the implicit universe) and
stores its snapshot; no explicit hit set `[0, len − W]` is produced. -/
theorem first_unknown_scan_leaves_hits_absent (ops : NumOps α)
    (decode : List Nat → α) (W : Nat) (sc : Scanner)
    (regions : List MemoryRegion) (readMem : MemoryRegion → Option (List Nat))
    (sc' : Scanner)
    (h : Scanner.scan ops decode W (Scanner.new_scan sc) regions readMem .Unknown
      = some sc') :
    ∀ r rr, lookupRegion sc'.results r = some rr →
      ∃ mem, readMem r = some mem ∧ rr = ⟨r, none, some mem⟩ := by
  intro r rr hlk
  unfold Scanner.scan at h
  simp only [Scanner.new_scan, if_true] at h
  cases hfold : scanFoldNew ops decode W readMem .Unknown regions [] with
  | none => rw [hfold] at h; exact absurd h (by simp)
  | some res =>
    rw [hfold] at h
    simp only [Option.some.injEq] at h
    subst h
    rcases scanFoldNew_entries hfold r rr hlk with hnil | ⟨mem, hrd, hup⟩
    · exact absurd hnil (by simp [lookupRegion])
    · rw [update_new_unknown] at hup
      simp only [Option.some.injEq] at hup
      exact ⟨mem, hrd, hup.symm⟩

/-- Witness for the amended C3 theorem at a concrete scan. -/
theorem first_unknown_scan_leaves_hits_absent_witness :
    ∃ mem, (fun _ : MemoryRegion => some [0, 0]) (⟨4096, 2⟩ : MemoryRegion)
        = some mem
      ∧ (⟨⟨4096, 2⟩, none, some [0, 0]⟩ : RegionResults) = ⟨⟨4096, 2⟩, none, some mem⟩ :=
  first_unknown_scan_leaves_hits_absent (uintOps 8) leVal 1 Scanner.mkNew
    [⟨4096, 2⟩] (fun _ => some [0, 0])
    ⟨[(⟨4096, 2⟩, ⟨⟨4096, 2⟩, none, some [0, 0]⟩)], false⟩ rfl
    ⟨4096, 2⟩ ⟨⟨4096, 2⟩, none, some [0, 0]⟩ rfl

/-- C3 counterexample: on a 2-byte region read as `[0, 0]`, the first
`scan(Unknown)` at width 1 leaves the hit set `none`, not the explicit
universe `[0, 1]` the claim requires. -/
theorem first_unknown_scan_universe_cex :
    Scanner.scan (uintOps 8) leVal 1 (Scanner.new_scan ⟨[], false⟩) [⟨4096, 2⟩]
        (fun _ => some [0, 0]) .Unknown
      = some ⟨[(⟨4096, 2⟩, ⟨⟨4096, 2⟩, none, some [0, 0]⟩)], false⟩
    ∧ (none : Option (List Nat)) ≠ some [0, 1] := by decide

/-- A first-scan `Exact(v)` update at width `W` on a buffer of exactly
`region.size` bytes produces the hit set
`{ o : o + W < len ∧ value at o = v }`: the scan range is the half-open
`0..(size − W)`, so the last in-bounds offset `len − W` is never visited. -/
theorem update_new_exact_hits (decode : List Nat → Nat) (w W : Nat)
    (r : MemoryRegion) (buf : List Nat) (v : Nat) (hlen : buf.length = r.size) :
    ∃ s' l, RegionResults.update_results (uintOps w) decode W (RegionResults.new r)
        buf (.Exact v) = some s'
      ∧ s'.hit_offsets = some l
      ∧ ∀ o, o ∈ l ↔ (o + W < buf.length ∧ decode ((buf.drop o).take W) = v) := by
  have hmap : mapOpt
      (fun offset => (read_from_buffer decode buf offset W).map (fun val => (offset, val)))
      ((List.range (r.size - W)).filter (fun offset => offset + W ≤ buf.length))
      = some (((List.range (r.size - W)).filter
            (fun offset => offset + W ≤ buf.length)).map
          (fun offset => (offset, decode ((buf.drop offset).take W)))) := by
    apply mapOpt_eq_map
    intro a ha
    have hb : a + W ≤ buf.length := by simpa using (List.mem_filter.mp ha).2
    simp [read_from_buffer, hb]
  simp only [RegionResults.update_results, RegionResults.new]
  rw [hmap]
  refine ⟨_, _, rfl, keepSnapshot_hit_offsets _ _, ?_⟩
  intro o
  constructor
  · intro hmem
    obtain ⟨p, hpf, hpo⟩ := List.mem_map.mp hmem
    obtain ⟨hpm, hq⟩ := List.mem_filter.mp hpf
    obtain ⟨a, haL, rfl⟩ := List.mem_map.mp hpm
    obtain ⟨har, hab⟩ := List.mem_filter.mp haL
    rw [List.mem_range] at har
    have hao : a = o := hpo
    subst hao
    refine ⟨by omega, ?_⟩
    have hq' : v = decode ((buf.drop a).take W) := by
      simpa [ScanFilter.matches, uintOps] using hq
    exact hq'.symm
  · rintro ⟨hb, hv⟩
    refine List.mem_map.mpr ⟨(o, decode ((buf.drop o).take W)), ?_, rfl⟩
    refine List.mem_filter.mpr ⟨List.mem_map.mpr ⟨o, ?_, rfl⟩, ?_⟩
    · refine List.mem_filter.mpr ⟨List.mem_range.mpr (by omega), ?_⟩
      simpa using (by omega : o + W ≤ buf.length)
    · simp [ScanFilter.matches, uintOps, hv]

/-- C2 (amended): after `new_scan()`, a first scan with `Exact(v)` at width
`W` gives, for every region whose read succeeded (remote reads return
exactly `region.size` bytes), the hit set
`{ o : o + W < len(snapshot) ∧ read(snapshot, o) = v }` — the half-open
scan range `0..(size − W)` excludes the last in-bounds offset
`len(snapshot) − W`. -/
theorem first_exact_scan_hits (decode : List Nat → Nat) (w W : Nat) (v : Nat)
    (sc : Scanner) (regions : List MemoryRegion)
    (readMem : MemoryRegion → Option (List Nat)) (sc' : Scanner)
    (hread : ∀ r mem, readMem r = some mem → mem.length = r.size)
    (h : Scanner.scan (uintOps w) decode W (Scanner.new_scan sc) regions readMem
      (.Exact v) = some sc') :
    ∀ r rr, lookupRegion sc'.results r = some rr →
      ∃ mem l, readMem r = some mem ∧ rr.hit_offsets = some l ∧
        ∀ o, o ∈ l ↔ (o + W < mem.length ∧ decode ((mem.drop o).take W) = v) := by
  intro r rr hlk
  unfold Scanner.scan at h
  simp only [Scanner.new_scan, if_true] at h
  cases hfold : scanFoldNew (uintOps w) decode W readMem (.Exact v) regions [] with
  | none => rw [hfold] at h; exact absurd h (by simp)
  | some res =>
    rw [hfold] at h
    simp only [Option.some.injEq] at h
    subst h
    rcases scanFoldNew_entries hfold r rr hlk with hnil | ⟨mem, hrd, hup⟩
    · exact absurd hnil (by simp [lookupRegion])
    · obtain ⟨s', l, hup', hh, hiff⟩ :=
        update_new_exact_hits decode w W r mem v (hread r mem hrd)
      rw [hup'] at hup
      simp only [Option.some.injEq] at hup
      subst hup
      exact ⟨mem, l, hrd, hh, hiff⟩

/-- Witness for the amended C2 theorem at a concrete scan. -/
theorem first_exact_scan_hits_witness :
    ∃ mem l,
      (fun q : MemoryRegion => if q.size = 3 then some [65, 0, 65] else none)
          (⟨4096, 3⟩ : MemoryRegion) = some mem
      ∧ (⟨⟨4096, 3⟩, some [0], some [65, 0, 65]⟩ : RegionResults).hit_offsets = some l
      ∧ ∀ o, o ∈ l ↔ (o + 1 < mem.length ∧ leVal ((mem.drop o).take 1) = 65) := by
  refine first_exact_scan_hits leVal 8 1 65 Scanner.mkNew [⟨4096, 3⟩]
    (fun q => if q.size = 3 then some [65, 0, 65] else none)
    ⟨[(⟨4096, 3⟩, ⟨⟨4096, 3⟩, some [0], some [65, 0, 65]⟩)], false⟩ ?_ rfl
    ⟨4096, 3⟩ ⟨⟨4096, 3⟩, some [0], some [65, 0, 65]⟩ rfl
  intro q mem hm
  by_cases h3 : q.size = 3
  · simp only [h3, if_true, Option.some.injEq] at hm
    subst hm
    simp [h3]
  · simp [h3] at hm

/-- C2 counterexample: a 4-byte region whose whole content is the scanned
u32 value.  The claim's hit set `{ o : o + W ≤ len }` contains offset 0
(`0 + 4 ≤ 4` and the value at 0 equals `v`), but the first Exact scan
produces the empty hit set, because the scan range `0..(4 − 4)` is empty. -/
theorem first_exact_scan_last_offset_cex :
    Scanner.scan (uintOps 32) leVal 4 (Scanner.new_scan ⟨[], false⟩) [⟨4096, 4⟩]
        (fun _ => some [65, 65, 65, 65]) (.Exact 1094795585)
      = some ⟨[(⟨4096, 4⟩, ⟨⟨4096, 4⟩, some [], none⟩)], false⟩
    ∧ 0 + 4 ≤ 4 ∧ leVal (([65, 65, 65, 65].drop 0).take 4) = 1094795585 := by
  decide

/-- When a region's hit set is present (and non-empty only with a snapshot
present, as every reachable scanner state guarantees), one refinement pass
body can only shrink it, and it re-establishes the same guarantee. -/
theorem scanPassRegion_mono {ops : NumOps α} {decode : List Nat → α} {W : Nat}
    {s : RegionResults} {readResult : Option (List Nat)} {filter : ScanFilter α}
    {l : List Nat} {s' : RegionResults}
    (hl : s.hit_offsets = some l)
    (hbuf : l ≠ [] → s.buffer.isSome)
    (h : scanPassRegion ops decode W s readResult filter = some s') :
    ∃ l', s'.hit_offsets = some l' ∧ l'.Sublist l ∧ (l' ≠ [] → s'.buffer.isSome) := by
  simp only [scanPassRegion, hl] at h
  by_cases hnil : 0 < l.length
  · rw [if_pos hnil] at h
    cases readResult with
    | none =>
      simp only [Option.some.injEq] at h
      subst h
      exact ⟨l, hl, List.Sublist.refl l, hbuf⟩
    | some mem =>
      have hne : l ≠ [] := by
        intro he
        rw [he] at hnil
        exact absurd hnil (by simp)
      obtain ⟨prev, hprev⟩ := Option.isSome_iff_exists.mp (hbuf hne)
      simp only [RegionResults.update_results, hprev, hl] at h
      split at h
      · rename_i triples heq
        simp only [Option.some.injEq] at h
        subst h
        have hproj : ∀ (a : Nat) (y : Nat × α × α),
            (match read_from_buffer decode mem a W, read_from_buffer decode prev a W with
              | some val, some pv => some (a, val, pv)
              | _, _ => none) = some y → y.1 = a := by
          intro a y hy
          cases h1 : read_from_buffer decode mem a W with
          | none =>
            simp only [h1] at hy
            exact Option.noConfusion hy
          | some val =>
            cases h2 : read_from_buffer decode prev a W with
            | none =>
              simp only [h1, h2] at hy
              exact Option.noConfusion hy
            | some pv =>
              simp only [h1, h2, Option.some.injEq] at hy
              subst hy
              rfl
        have hfst := mapOpt_map_proj hproj heq
        refine ⟨_, keepSnapshot_hit_offsets _ _, ?_, ?_⟩
        · have h1 : (((triples.filter
              (fun t => ScanFilter.matches ops filter t.2.1 t.2.2)).map
                (fun t => t.1)).Sublist (triples.map (fun t => t.1))) :=
            List.Sublist.map _ (List.filter_sublist _)
          rw [hfst] at h1
          exact h1.trans (List.filter_sublist l)
        · intro hne'
          rw [keepSnapshot_buffer_of_ne_nil rfl hne' mem]
          rfl
      · rename_i heq
        exact absurd h (by simp)
  · rw [if_neg hnil] at h
    simp only [Option.some.injEq] at h
    subst h
    exact ⟨l, hl, List.Sublist.refl l, hbuf⟩

/-- C4: monotone refinement.  For a region whose hit set is present before a
refinement pass (with the reachable-state guarantee that a non-empty hit set
comes with a snapshot), the hit set after the pass body is a sublist of —
hence a subset of, and no longer than — the hit set before it. -/
theorem refinement_pass_monotone (ops : NumOps α) (decode : List Nat → α)
    (W : Nat) (s : RegionResults) (readResult : Option (List Nat))
    (filter : ScanFilter α) (l : List Nat) (s' : RegionResults)
    (hl : s.hit_offsets = some l)
    (hbuf : l ≠ [] → s.buffer.isSome)
    (h : scanPassRegion ops decode W s readResult filter = some s') :
    ∃ l', s'.hit_offsets = some l' ∧ l'.Sublist l ∧ l'.length ≤ l.length := by
  obtain ⟨l', h1, h2, _⟩ := scanPassRegion_mono hl hbuf h
  exact ⟨l', h1, h2, h2.length_le⟩

/-- Witness for the monotone-refinement theorem at a concrete pass. -/
theorem refinement_pass_monotone_witness :
    ∃ l', (RegionResults.mk ⟨4096, 3⟩ (some [0]) (some [7, 7, 7])).hit_offsets
        = some l'
      ∧ l'.Sublist [0] ∧ l'.length ≤ [0].length :=
  refinement_pass_monotone (uintOps 8) leVal 1
    ⟨⟨4096, 3⟩, some [0], some [7, 7, 7]⟩ (some [7, 7, 7]) .Unchanged [0]
    ⟨⟨4096, 3⟩, some [0], some [7, 7, 7]⟩ rfl (fun _ => rfl) rfl

/-- C8: bounds safety on subsequent passes.  When a snapshot is present and
both it and the new bytes have length `region.size` (the `read_bytes`
contract), `update_results` completes — no `read_from_buffer` assertion
fires — and every kept offset `o` satisfies
`o + W ≤ min(len(new), len(snapshot))`. -/
theorem subsequent_pass_in_bounds (ops : NumOps α) (decode : List Nat → α)
    (W : Nat) (s : RegionResults) (region_buf prev : List Nat)
    (filter : ScanFilter α)
    (hprev : s.buffer = some prev)
    (hplen : prev.length = s.region.size)
    (hblen : region_buf.length = s.region.size) :
    ∃ s', RegionResults.update_results ops decode W s region_buf filter = some s'
      ∧ ∀ l, s'.hit_offsets = some l →
          ∀ o ∈ l, o + W ≤ min region_buf.length prev.length := by
  have hread : ∀ a : Nat, a + W ≤ region_buf.length →
      (match read_from_buffer decode region_buf a W,
          read_from_buffer decode prev a W with
        | some val, some pv => some (a, val, pv)
        | _, _ => none)
      = some (a, decode ((region_buf.drop a).take W), decode ((prev.drop a).take W)) := by
    intro a ha
    have ha2 : a + W ≤ prev.length := by omega
    simp [read_from_buffer, ha, ha2]
  cases hho : s.hit_offsets with
  | some old =>
    have hmap : mapOpt
        (fun offset =>
          match read_from_buffer decode region_buf offset W,
              read_from_buffer decode prev offset W with
          | some val, some pv => some (offset, val, pv)
          | _, _ => none)
        (old.filter (fun offset => offset + W ≤ region_buf.length))
        = some ((old.filter (fun offset => offset + W ≤ region_buf.length)).map
            (fun offset => (offset, decode ((region_buf.drop offset).take W),
              decode ((prev.drop offset).take W)))) := by
      apply mapOpt_eq_map
      intro a ha
      exact hread a (by simpa using (List.mem_filter.mp ha).2)
    simp only [RegionResults.update_results, hprev, hho]
    rw [hmap]
    refine ⟨_, rfl, ?_⟩
    intro l hl o ho
    rw [keepSnapshot_hit_offsets] at hl
    simp only [Option.some.injEq] at hl
    subst hl
    obtain ⟨p, hpf, hpo⟩ := List.mem_map.mp ho
    obtain ⟨hpm, -⟩ := List.mem_filter.mp hpf
    obtain ⟨a, haL, rfl⟩ := List.mem_map.mp hpm
    have hao : a = o := hpo
    subst hao
    have hb : a + W ≤ region_buf.length := by
      simpa using (List.mem_filter.mp haL).2
    omega
  | none =>
    have hmap : mapOpt
        (fun offset =>
          match read_from_buffer decode region_buf offset W,
              read_from_buffer decode prev offset W with
          | some val, some pv => some (offset, val, pv)
          | _, _ => none)
        ((List.range (s.region.size - W)).filter
          (fun offset => offset + W ≤ region_buf.length))
        = some (((List.range (s.region.size - W)).filter
              (fun offset => offset + W ≤ region_buf.length)).map
            (fun offset => (offset, decode ((region_buf.drop offset).take W),
              decode ((prev.drop offset).take W)))) := by
      apply mapOpt_eq_map
      intro a ha
      exact hread a (by simpa using (List.mem_filter.mp ha).2)
    simp only [RegionResults.update_results, hprev, hho]
    rw [hmap]
    refine ⟨_, rfl, ?_⟩
    intro l hl o ho
    rw [keepSnapshot_hit_offsets] at hl
    simp only [Option.some.injEq] at hl
    subst hl
    obtain ⟨p, hpf, hpo⟩ := List.mem_map.mp ho
    obtain ⟨hpm, -⟩ := List.mem_filter.mp hpf
    obtain ⟨a, haL, rfl⟩ := List.mem_map.mp hpm
    have hao : a = o := hpo
    subst hao
    have hb : a + W ≤ region_buf.length := by
      simpa using (List.mem_filter.mp haL).2
    omega

/-- Witness for the bounds-safety theorem at a concrete pass. -/
theorem subsequent_pass_in_bounds_witness :
    ∃ s', RegionResults.update_results (uintOps 8) leVal 1
        ⟨⟨4096, 2⟩, some [0], some [1, 2]⟩ [3, 4] .Changed = some s'
      ∧ ∀ l, s'.hit_offsets = some l →
          ∀ o ∈ l, o + 1 ≤ min ([3, 4] : List Nat).length ([1, 2] : List Nat).length :=
  subsequent_pass_in_bounds (uintOps 8) leVal 1
    ⟨⟨4096, 2⟩, some [0], some [1, 2]⟩ [3, 4] [1, 2] .Changed rfl rfl rfl

/-- The refinement loop only shrinks present hit sets: the per-region
guarantee of `scanPassRegion_mono`, carried through the fold. -/
theorem scanFoldRefine_mono {ops : NumOps α} {decode : List Nat → α} {W : Nat}
    {readMem : MemoryRegion → Option (List Nat)} {filter : ScanFilter α} :
    ∀ {regions : List MemoryRegion} {acc acc' : List (MemoryRegion × RegionResults)},
      scanFoldRefine ops decode W readMem filter regions acc = some acc' →
      ∀ r rr l, lookupRegion acc r = some rr → rr.hit_offsets = some l →
        (l ≠ [] → rr.buffer.isSome) →
        ∃ rr' l', lookupRegion acc' r = some rr' ∧ rr'.hit_offsets = some l' ∧
          l'.Sublist l ∧ (l' ≠ [] → rr'.buffer.isSome) := by
  intro regions
  induction regions with
  | nil =>
    intro acc acc' h r rr l hlk hho hbuf
    simp only [scanFoldRefine, Option.some.injEq] at h
    subst h
    exact ⟨rr, l, hlk, hho, List.Sublist.refl l, hbuf⟩
  | cons region rest ih =>
    intro acc acc' h r rr l hlk hho hbuf
    simp only [scanFoldRefine] at h
    cases hlk0 : lookupRegion acc region with
    | none =>
      simp only [hlk0] at h
      exact ih h r rr l hlk hho hbuf
    | some rr0 =>
      simp only [hlk0] at h
      cases hsp : scanPassRegion ops decode W rr0 (readMem region) filter with
      | none =>
        simp only [hsp] at h
        exact Option.noConfusion h
      | some rr0' =>
        simp only [hsp] at h
        by_cases hr : r = region
        · subst hr
          rw [hlk0] at hlk
          have hrr : rr0 = rr := Option.some.inj hlk
          subst hrr
          obtain ⟨l0', hh0, hsub0, hinv0⟩ := scanPassRegion_mono hho hbuf hsp
          obtain ⟨rr'', l'', hlk'', hh'', hsub'', hinv''⟩ :=
            ih h r rr0' l0' (lookupRegion_insertRegion_self acc r rr0') hh0 hinv0
          exact ⟨rr'', l'', hlk'', hh'', hsub''.trans hsub0, hinv''⟩
        · have hlk1 : lookupRegion (insertRegion acc region rr0') r = some rr := by
            rw [lookupRegion_insertRegion_ne _ _ _ _ hr]
            exact hlk
          exact ih h r rr l hlk1 hho hbuf

/-- C6 (amended): the Scanner keeps no record of the scan width, so a scan
whose filter has a different numeric width performs no implicit
`new_scan()`: with `is_new_scan` false the pass refines the existing hit
sets in place — each tracked region's resulting hit set is a sublist of its
prior one, so offsets gathered at the old width are reused, not
recomputed fresh. -/
theorem scan_performs_no_width_reset (ops : NumOps α) (decode : List Nat → α)
    (W : Nat) (sc : Scanner) (regions : List MemoryRegion)
    (readMem : MemoryRegion → Option (List Nat)) (filter : ScanFilter α)
    (sc' : Scanner)
    (hflag : sc.is_new_scan = false)
    (h : Scanner.scan ops decode W sc regions readMem filter = some sc') :
    sc'.is_new_scan = false ∧
    ∀ r rr l, lookupRegion sc.results r = some rr → rr.hit_offsets = some l →
      (l ≠ [] → rr.buffer.isSome) →
      ∃ rr' l', lookupRegion sc'.results r = some rr' ∧ rr'.hit_offsets = some l'
        ∧ l'.Sublist l := by
  simp only [Scanner.scan, hflag, Bool.false_eq_true, if_false] at h
  cases hfold : scanFoldRefine ops decode W readMem filter regions sc.results with
  | none =>
    rw [hfold] at h
    exact absurd h (by simp)
  | some res =>
    rw [hfold] at h
    simp only [Option.some.injEq] at h
    subst h
    refine ⟨rfl, ?_⟩
    intro r rr l hlk hho hbuf
    obtain ⟨rr', l', h1, h2, h3, -⟩ := scanFoldRefine_mono hfold r rr l hlk hho hbuf
    exact ⟨rr', l', h1, h2, h3⟩

/-- C6 counterexample: a region scanned at width 4 holds the sole hit
offset 2.  A following width-1 `Exact(0x41)` scan does not reset: it
refines the prior hit set and returns `[2]`, whereas a genuine
`new_scan(); scan` at width 1 (second conjunct) returns `[2, 3, 4, 5]`. -/
theorem width_change_no_reset_cex :
    Scanner.scan (uintOps 8) leVal 1
        ⟨[(⟨4096, 8⟩, ⟨⟨4096, 8⟩, some [2], some [0, 0, 65, 65, 65, 65, 0, 0]⟩)],
          false⟩
        [⟨4096, 8⟩] (fun _ => some [0, 0, 65, 65, 65, 65, 0, 0]) (.Exact 65)
      = some ⟨[(⟨4096, 8⟩,
          ⟨⟨4096, 8⟩, some [2], some [0, 0, 65, 65, 65, 65, 0, 0]⟩)], false⟩
    ∧ Scanner.scan (uintOps 8) leVal 1 (Scanner.new_scan ⟨[], false⟩)
        [⟨4096, 8⟩] (fun _ => some [0, 0, 65, 65, 65, 65, 0, 0]) (.Exact 65)
      = some ⟨[(⟨4096, 8⟩,
          ⟨⟨4096, 8⟩, some [2, 3, 4, 5], some [0, 0, 65, 65, 65, 65, 0, 0]⟩)], false⟩
    ∧ ([2] : List Nat) ≠ [2, 3, 4, 5] := by
  decide

/-- Witness for the amended C6 theorem at a concrete refinement pass. -/
theorem scan_performs_no_width_reset_witness :
    (Scanner.mk [(⟨4096, 8⟩,
        ⟨⟨4096, 8⟩, some [2], some [0, 0, 65, 65, 65, 65, 0, 0]⟩)] false).is_new_scan
      = false ∧
    ∀ r rr l, lookupRegion (Scanner.mk [(⟨4096, 8⟩,
        ⟨⟨4096, 8⟩, some [2], some [0, 0, 65, 65, 65, 65, 0, 0]⟩)] false).results r
        = some rr →
      rr.hit_offsets = some l → (l ≠ [] → rr.buffer.isSome) →
      ∃ rr' l', lookupRegion (Scanner.mk [(⟨4096, 8⟩,
          ⟨⟨4096, 8⟩, some [2], some [0, 0, 65, 65, 65, 65, 0, 0]⟩)] false).results r
          = some rr'
        ∧ rr'.hit_offsets = some l' ∧ l'.Sublist l :=
  scan_performs_no_width_reset (uintOps 8) leVal 1
    ⟨[(⟨4096, 8⟩, ⟨⟨4096, 8⟩, some [2], some [0, 0, 65, 65, 65, 65, 0, 0]⟩)], false⟩
    [⟨4096, 8⟩] (fun _ => some [0, 0, 65, 65, 65, 65, 0, 0]) (.Exact 65)
    ⟨[(⟨4096, 8⟩, ⟨⟨4096, 8⟩, some [2], some [0, 0, 65, 65, 65, 65, 0, 0]⟩)], false⟩
    rfl rfl

/-- A refinement fold never touches the entry of a region that is not in
this pass's enumeration. -/
theorem scanFoldRefine_not_enumerated {ops : NumOps α} {decode : List Nat → α}
    {W : Nat} {readMem : MemoryRegion → Option (List Nat)} {filter : ScanFilter α} :
    ∀ {regions : List MemoryRegion} {acc acc' : List (MemoryRegion × RegionResults)},
      scanFoldRefine ops decode W readMem filter regions acc = some acc' →
      ∀ r, r ∉ regions → lookupRegion acc' r = lookupRegion acc r := by
  intro regions
  induction regions with
  | nil =>
    intro acc acc' h r hr
    simp only [scanFoldRefine, Option.some.injEq] at h
    subst h
    rfl
  | cons region rest ih =>
    intro acc acc' h r hrmem
    have hr1 : r ≠ region := fun he => hrmem (he ▸ List.mem_cons_self region rest)
    have hr2 : r ∉ rest := fun he => hrmem (List.mem_cons_of_mem _ he)
    simp only [scanFoldRefine] at h
    cases hlk0 : lookupRegion acc region with
    | none =>
      simp only [hlk0] at h
      exact ih h r hr2
    | some rr0 =>
      simp only [hlk0] at h
      cases hsp : scanPassRegion ops decode W rr0 (readMem region) filter with
      | none =>
        simp only [hsp] at h
        exact Option.noConfusion h
      | some rr0' =>
        simp only [hsp] at h
        rw [ih h r hr2, lookupRegion_insertRegion_ne _ _ _ _ hr1]

/-- A refinement fold never adds an entry for a region it was not already
tracking. -/
theorem scanFoldRefine_not_tracked {ops : NumOps α} {decode : List Nat → α}
    {W : Nat} {readMem : MemoryRegion → Option (List Nat)} {filter : ScanFilter α} :
    ∀ {regions : List MemoryRegion} {acc acc' : List (MemoryRegion × RegionResults)},
      scanFoldRefine ops decode W readMem filter regions acc = some acc' →
      ∀ r, lookupRegion acc r = none → lookupRegion acc' r = none := by
  intro regions
  induction regions with
  | nil =>
    intro acc acc' h r hr
    simp only [scanFoldRefine, Option.some.injEq] at h
    subst h
    exact hr
  | cons region rest ih =>
    intro acc acc' h r hnone
    simp only [scanFoldRefine] at h
    cases hlk0 : lookupRegion acc region with
    | none =>
      simp only [hlk0] at h
      exact ih h r hnone
    | some rr0 =>
      simp only [hlk0] at h
      cases hsp : scanPassRegion ops decode W rr0 (readMem region) filter with
      | none =>
        simp only [hsp] at h
        exact Option.noConfusion h
      | some rr0' =>
        simp only [hsp] at h
        by_cases hr : r = region
        · subst hr
          rw [hlk0] at hnone
          exact Option.noConfusion hnone
        · refine ih h r ?_
          rw [lookupRegion_insertRegion_ne _ _ _ _ hr]
          exact hnone

/-- C7 (amended): each scan pass enumerates the writable regions anew; a
refinement pass leaves regions missing from the enumeration untouched in
the region map (they are retained, not dropped), and it never adds an
entry for a region it was not already tracking. -/
theorem refinement_pass_region_map (ops : NumOps α) (decode : List Nat → α)
    (W : Nat) (sc : Scanner) (regions : List MemoryRegion)
    (readMem : MemoryRegion → Option (List Nat)) (filter : ScanFilter α)
    (sc' : Scanner)
    (hflag : sc.is_new_scan = false)
    (h : Scanner.scan ops decode W sc regions readMem filter = some sc') :
    (∀ r, r ∉ regions → lookupRegion sc'.results r = lookupRegion sc.results r)
    ∧ (∀ r, lookupRegion sc.results r = none → lookupRegion sc'.results r = none) := by
  simp only [Scanner.scan, hflag, Bool.false_eq_true, if_false] at h
  cases hfold : scanFoldRefine ops decode W readMem filter regions sc.results with
  | none =>
    rw [hfold] at h
    exact absurd h (by simp)
  | some res =>
    rw [hfold] at h
    simp only [Option.some.injEq] at h
    subst h
    exact ⟨fun r hr => scanFoldRefine_not_enumerated hfold r hr,
      fun r hr => scanFoldRefine_not_tracked hfold r hr⟩

/-- C7 counterexample: a tracked region absent from the enumeration is
still in the region map after the refinement pass, contradicting the
claim that it is dropped. -/
theorem disappeared_region_retained_cex :
    Scanner.scan (uintOps 8) leVal 1
        ⟨[(⟨4096, 2⟩, ⟨⟨4096, 2⟩, some [0], some [5, 5]⟩)], false⟩ []
        (fun _ => none) .Unknown
      = some ⟨[(⟨4096, 2⟩, ⟨⟨4096, 2⟩, some [0], some [5, 5]⟩)], false⟩
    ∧ lookupRegion [(⟨4096, 2⟩, ⟨⟨4096, 2⟩, some [0], some [5, 5]⟩)] ⟨4096, 2⟩
        ≠ none := by
  decide

/-- Witness for the amended C7 theorem at a concrete refinement pass. -/
theorem refinement_pass_region_map_witness :
    (∀ r, r ∉ ([] : List MemoryRegion) →
      lookupRegion (Scanner.mk
          [(⟨4096, 2⟩, ⟨⟨4096, 2⟩, some [0], some [5, 5]⟩)] false).results r
        = lookupRegion (Scanner.mk
          [(⟨4096, 2⟩, ⟨⟨4096, 2⟩, some [0], some [5, 5]⟩)] false).results r)
    ∧ (∀ r, lookupRegion (Scanner.mk
          [(⟨4096, 2⟩, ⟨⟨4096, 2⟩, some [0], some [5, 5]⟩)] false).results r = none →
        lookupRegion (Scanner.mk
          [(⟨4096, 2⟩, ⟨⟨4096, 2⟩, some [0], some [5, 5]⟩)] false).results r = none) :=
  refinement_pass_region_map (uintOps 8) leVal 1
    ⟨[(⟨4096, 2⟩, ⟨⟨4096, 2⟩, some [0], some [5, 5]⟩)], false⟩ []
    (fun _ => none) .Unknown
    ⟨[(⟨4096, 2⟩, ⟨⟨4096, 2⟩, some [0], some [5, 5]⟩)], false⟩ rfl rfl

/-- C9: `Core::attach` on a detached core with an `Other` target returns
`Ok(())` and leaves the core unchanged — the constructed
"not yet implemented" error is bound to an unused local and discarded, so
the claim's required error return does not happen (the state-preservation
half holds). -/
theorem attach_other_returns_ok :
    ∀ (attachExt : Nat → Except String Nat)
      (attachExtByName : String → Except String Nat) (tag : String),
      Core.attach attachExt attachExtByName
          ⟨none, none, .Detached, .Ready⟩ (.Other tag)
        = (⟨none, none, .Detached, .Ready⟩, Except.ok ()) := by
  intro attachExt attachExtByName tag
  rfl

/-- C10: the controller's `get_first_results` width dispatch sends
`MemType::U64` to the 32-bit unsigned instantiation (width 4, not the
matching width 8), while every other `MemType` is dispatched to its
matching numeric type. -/
theorem u64_dispatch_mismatch :
    get_first_results_dispatch .U64 = some .u32
    ∧ (get_first_results_dispatch .U64).map NumKind.width = some 4
    ∧ (matchingKind .U64).map NumKind.width = some 8
    ∧ ∀ t : MemType, t ≠ .U64 → get_first_results_dispatch t = matchingKind t := by
  refine ⟨rfl, rfl, rfl, ?_⟩
  intro t ht
  cases t <;> first | rfl | exact absurd rfl ht

/-- Witness for the dispatch theorem at a concrete `MemType`. -/
theorem u64_dispatch_mismatch_witness :
    get_first_results_dispatch .U32 = matchingKind .U32 :=
  u64_dispatch_mismatch.2.2.2 .U32 (by decide)

end MemNinja
